import Mathlib

/-!
Verification of the SEGGER open-flash-loader entry points in
`src/flash/flash_device.cpp` (target lpc1756, flash chip is25lq040b).

The entry points are shallowly embedded: machine `uint32_t` arithmetic is
`Nat` with an explicit `% 2 ^ 32` where the source can overflow, the
address mask `& 0xfffffff` is kept literally, and each operation returns
the list of commands it issues to the external flash driver together with
its C `int` result.  The flash driver itself (`klib`'s is25lq040b class)
is not part of `src/`; its operations are modelled from the spec where a
claim needs their semantics, and marked as such.
-/

namespace FlashLoader

/-- The device byte store: a byte value for every native offset.  Used to
model the external flash chip the driver talks to. -/
def Mem : Type := Nat → Nat

/-- A command issued by an entry point: the watchdog hook call plus the
four bus commands of the flash driver (sector erase, chip erase, page
program with its payload bytes, read). -/
inductive Event where
  | feedWatchdog : Event
  | eraseSector : Nat → Event
  | chipErase : Event
  | pageProgram : Nat → List Nat → Event
  | readCmd : Nat → Nat → Event
  deriving DecidableEq, Repr

/-- `PAGE_SIZE_SHIFT` from the source: page size is `2 ^ 8 = 256` bytes. -/
def PAGE_SIZE_SHIFT : Nat := 8

/-- `SECTOR_SIZE_SHIFT` from the source: sector size is `2 ^ 12 = 4096`
bytes. -/
def SECTOR_SIZE_SHIFT : Nat := 12

/-- The address mask `& 0xfffffff` applied by the entry points before a
bus command (low 28 bits of the incoming 32-bit address). -/
def mask28 (a : Nat) : Nat := a &&& 0xfffffff

theorem mask28_eq_mod (a : Nat) : mask28 a = a % 2 ^ 28 := by
  have h : (0xfffffff : Nat) = 2 ^ 28 - 1 := by norm_num
  rw [mask28, h, Nat.and_pow_two_sub_one_eq_mod]

@[simp] theorem page_shift_eq : (1 <<< PAGE_SIZE_SHIFT : Nat) = 256 := rfl

@[simp] theorem sector_shift_eq : (1 <<< SECTOR_SIZE_SHIFT : Nat) = 4096 := rfl

/-- Modelled from the spec: the flash driver operation
`program_page(address, data, length)` of the is25lq040b class (external to
`src/`), "writes up to one page per call"; the byte store takes the
payload on `[addr, addr + size)` and is unchanged elsewhere. -/
def memWrite (mem : Mem) (addr : Nat) (data : Nat → Nat) (dataOff size : Nat) : Mem :=
  fun x => if addr ≤ x ∧ x < addr + size then data (dataOff + (x - addr)) else mem x

/-- Modelled from the spec: the flash driver operation `erase_sector`
(external to `src/`) forces every byte of the enclosing 4096-byte sector
to the blank value `0xff`. -/
def memEraseSector (mem : Mem) (addr : Nat) : Mem :=
  fun x => if x / 4096 = addr / 4096 then 0xff else mem x

/-- Modelled from the spec: the flash driver operation `read(address,
length) -> bytes` (external to `src/`) is a plain pass-through read of
`len` bytes starting at `addr`. -/
def memReadBytes (mem : Mem) (addr len : Nat) : List Nat :=
  (List.range len).map fun j => mem (addr + j)

/-- `Init` (flash_device.cpp:156-188): clock / pin / bus and driver
set-up are calls into external collaborators, the busy-wait is modelled
by `pollLoop`; the function's own result is the constant `0`.  The three
parameters are unused for the result. -/
def Init (address frequency fnc : Nat) : Int := 0

/-- `UnInit` (flash_device.cpp:190-194): a stub returning `0`. -/
def UnInit (fnc : Nat) : Int := 0

/-- `EraseSector` (flash_device.cpp:196-207): masks the address, issues a
sector erase at the masked address, busy-waits (modelled by `pollLoop`,
which changes neither the store nor the result) and returns `0`. -/
def EraseSector (mem : Mem) (sector_address : Nat) : Mem × List Event × Int :=
  (memEraseSector mem (mask28 sector_address),
   [Event.eraseSector (mask28 sector_address)], 0)

/-- `ProgramPage` (flash_device.cpp:209-220): masks the address, writes
`size` bytes taken from the host buffer `data` at offset `dataOff` to the
device, busy-waits (modelled by `pollLoop`) and returns `0`. -/
def ProgramPage (mem : Mem) (address size : Nat) (data : Nat → Nat) (dataOff : Nat) :
    Mem × List Event × Int :=
  (memWrite mem (mask28 address) data dataOff size,
   [Event.pageProgram (mask28 address) ((List.range size).map fun j => data (dataOff + j))],
   0)

/-- `EraseChip` (flash_device.cpp:245-256): issues the chip erase (every
byte becomes the blank value `0xff`), busy-waits (modelled by `pollLoop`)
and returns `0`. -/
def EraseChip (mem : Mem) : Mem × List Event × Int :=
  (fun _ => 0xff, [Event.chipErase], 0)

/-- `SEGGER_OPEN_Read` (flash_device.cpp:317-322): masks the address,
reads `size` bytes from the device into the host buffer and returns
`size` (the C source returns the `uint32_t` byte count as `int`). -/
def SEGGER_OPEN_Read (mem : Mem) (address size : Nat) : List Nat × Int :=
  (memReadBytes mem (mask28 address) size, (size : Int))

/-- The loop body of `SEGGER_OPEN_Program` (flash_device.cpp:226-238),
generic in the state `σ` and the record `ε` kept of each page-program
call: `n` pages remain; each iteration calls `pp` with the current
address, the literal length `1 << PAGE_SIZE_SHIFT = 256` and the current
data offset, aborts with result `1` if the call's result is non-zero, and
otherwise advances address (32-bit wrap) and data by 256. -/
def openProgramLoop {σ ε : Type} (pp : σ → Nat → Nat → Nat → σ × List ε × Int) :
    Nat → σ → Nat → Nat → σ × List ε × Int
  | 0, s, _, _ => (s, [], 0)
  | n + 1, s, address, dataOff =>
    let res := pp s address (1 <<< PAGE_SIZE_SHIFT) dataOff
    if res.2.2 ≠ 0 then
      (res.1, res.2.1, 1)
    else
      let rest := openProgramLoop pp n res.1 ((address + (1 <<< PAGE_SIZE_SHIFT)) % 2 ^ 32)
        (dataOff + (1 <<< PAGE_SIZE_SHIFT))
      (rest.1, res.2.1 ++ rest.2.1, rest.2.2)

/-- `SEGGER_OPEN_Program` (flash_device.cpp:222-242): computes
`pages = size >> PAGE_SIZE_SHIFT` and runs the page loop. -/
def SEGGER_OPEN_Program {σ ε : Type} (pp : σ → Nat → Nat → Nat → σ × List ε × Int)
    (s : σ) (address size dataOff : Nat) : σ × List ε × Int :=
  openProgramLoop pp (size >>> PAGE_SIZE_SHIFT) s address dataOff

/-- The loop body of `SEGGER_OPEN_Erase` (flash_device.cpp:264-276),
generic in the state `σ`: `n` sectors remain; each iteration calls `es`
with the masked current sector address, aborts with result `1` on a
non-zero result, and otherwise advances the address by
`1 << SECTOR_SIZE_SHIFT = 4096` (32-bit wrap). -/
def openEraseLoop {σ : Type} (es : σ → Nat → σ × List Event × Int) :
    Nat → σ → Nat → σ × List Event × Int
  | 0, s, _ => (s, [], 0)
  | n + 1, s, sectorAddr =>
    let res := es s (mask28 sectorAddr)
    if res.2.2 ≠ 0 then
      (res.1, res.2.1, 1)
    else
      let rest := openEraseLoop es n res.1 ((sectorAddr + (1 <<< SECTOR_SIZE_SHIFT)) % 2 ^ 32)
      (rest.1, res.2.1 ++ rest.2.1, rest.2.2)

/-- `SEGGER_OPEN_Erase` (flash_device.cpp:260-280): calls `FeedWatchdog()`
first (recorded as the head event), then runs the sector loop.
`sectorIndex` is a parameter of the C function that its body never
reads. -/
def SEGGER_OPEN_Erase {σ : Type} (es : σ → Nat → σ × List Event × Int)
    (s : σ) (sectorAddr sectorIndex numSectors : Nat) : σ × List Event × Int :=
  let res := openEraseLoop es numSectors s sectorAddr
  (res.1, Event.feedWatchdog :: res.2.1, res.2.2)

/-- The device-backed page-program used when `SEGGER_OPEN_Program` runs
against the real `ProgramPage` (the host buffer `data` is fixed, the
state is the device byte store). -/
def ppDev (data : Nat → Nat) : Mem → Nat → Nat → Nat → Mem × List Event × Int :=
  fun mem address size dataOff => ProgramPage mem address size data dataOff

/-- `SEGGER_OPEN_Program` instantiated with the real `ProgramPage`. -/
def SEGGER_OPEN_Program_dev (mem : Mem) (address size : Nat) (data : Nat → Nat)
    (dataOff : Nat) : Mem × List Event × Int :=
  SEGGER_OPEN_Program (ppDev data) mem address size dataOff

/-- `SEGGER_OPEN_Erase` instantiated with the real `EraseSector`. -/
def SEGGER_OPEN_Erase_dev (mem : Mem) (sectorAddr sectorIndex numSectors : Nat) :
    Mem × List Event × Int :=
  SEGGER_OPEN_Erase (fun m a => EraseSector m a) mem sectorAddr sectorIndex numSectors

/-- A page-program oracle that records every call's `(address, size,
dataOff)` argument triple and returns the injected result `f address size
dataOff`; used to observe the calls `SEGGER_OPEN_Program` makes and to
inject failures. -/
def ppOracle (f : Nat → Nat → Nat → Int) :
    Unit → Nat → Nat → Nat → Unit × List (Nat × Nat × Nat) × Int :=
  fun _ a s d => ((), [(a, s, d)], f a s d)

/-- A sector-erase oracle recording each call as an `eraseSector` event
and returning the injected result `g a`. -/
def esOracle (g : Nat → Int) : Unit → Nat → Unit × List Event × Int :=
  fun _ a => ((), [Event.eraseSector a], g a)

/-- `BlankCheck`'s loop (flash_device.cpp:296-312), recursing on the
remaining byte count: each round reads `s = min(remaining, 256)` bytes
through the intermediate buffer (the read is recorded as an `(address,
length)` pair), returns `1` as soon as one byte of the chunk differs from
the blank value, and otherwise advances by `s`. -/
def blankCheckLoop (mem : Mem) (blank : Nat) : Nat → Nat → List (Nat × Nat) × Int
  | _, 0 => ([], 0)
  | addr, rem + 1 =>
    if (List.range (min (rem + 1) 256)).all (fun j => mem (addr + j) == blank) then
      let rest := blankCheckLoop mem blank (addr + min (rem + 1) 256) (rem + 1 - min (rem + 1) 256)
      ((addr, min (rem + 1) 256) :: rest.1, rest.2)
    else
      ([(addr, min (rem + 1) 256)], 1)
  termination_by _ rem => rem
  decreasing_by simp_wf

/-- `BlankCheck` (flash_device.cpp:292-315): masks the address and runs
the chunked compare loop over `size` bytes against `blank_value`. -/
def BlankCheck (mem : Mem) (address size blank_value : Nat) : List (Nat × Nat) × Int :=
  blankCheckLoop mem blank_value (mask28 address) size

/-- The busy-wait loop shared verbatim by `Init` (183-185), `EraseSector`
(201-204), `ProgramPage` (214-217) and `EraseChip` (250-253):
`while (memory::is_busy()) klib::delay(3 ms)`.  `busy i` is the device's
answer to the `i`-th status poll; the loop is run with explicit fuel
(the C loop has no cap, so termination needs the device to eventually
report not-busy) and returns the list of per-iteration delays in
milliseconds. -/
def pollLoop (busy : Nat → Bool) : Nat → Nat → Option (List Nat)
  | 0, _ => none
  | fuel + 1, i =>
    if busy i then (pollLoop busy fuel (i + 1)).map (fun l => 3 :: l)
    else some []

/-! ### Arithmetic helpers -/

theorem mask28_idem (a : Nat) : mask28 (mask28 a) = mask28 a := by
  simp [mask28_eq_mod, Nat.mod_mod_of_dvd]

theorem mod32_mod28 (x : Nat) : x % 2 ^ 32 % 2 ^ 28 = x % 2 ^ 28 :=
  Nat.mod_mod_of_dvd x (by norm_num)

theorem mask28_of_lt {a : Nat} (h : a < 2 ^ 28) : mask28 a = a := by
  rw [mask28_eq_mod, Nat.mod_eq_of_lt h]

/-- Splitting one step off a mapped `List.range`. -/
theorem cons_shift_range {α : Type} (g : Nat → α) (n : Nat) :
    g 0 :: (List.range n).map (fun k => g (k + 1)) = (List.range (n + 1)).map g := by
  rw [List.range_succ_eq_map, List.map_cons, List.map_map]
  rfl

/-! ### The `SEGGER_OPEN_Program` page loop with the recording oracle -/

theorem progLoop_ok (f : Nat → Nat → Nat → Int) (n : Nat) :
    ∀ (a d : Nat), a + 256 * n ≤ 2 ^ 32 →
    (∀ k, k < n → f (a + 256 * k) 256 (d + 256 * k) = 0) →
    openProgramLoop (ppOracle f) n () a d =
      ((), (List.range n).map fun k => (a + 256 * k, 256, d + 256 * k), 0) := by
  induction n with
  | zero => intro a d _ _; simp [openProgramLoop]
  | succ n ih =>
    intro a d hov hok
    have h0 : f a 256 d = 0 := by simpa using hok 0 n.succ_pos
    have hstep : openProgramLoop (ppOracle f) (n + 1) () a d =
        ((), (a, 256, d) ::
          (openProgramLoop (ppOracle f) n () ((a + 256) % 2 ^ 32) (d + 256)).2.1,
         (openProgramLoop (ppOracle f) n () ((a + 256) % 2 ^ 32) (d + 256)).2.2) := by
      simp [openProgramLoop, ppOracle, h0, page_shift_eq]
    cases n with
    | zero =>
      rw [hstep]
      simp [openProgramLoop, List.range_succ]
    | succ m =>
      have hlt : a + 256 < 2 ^ 32 := by omega
      have ihh := ih (a + 256) (d + 256) (by omega) (fun k hk => by
        have h := hok (k + 1) (by omega)
        have e1 : a + 256 * (k + 1) = a + 256 + 256 * k := by ring
        have e2 : d + 256 * (k + 1) = d + 256 + 256 * k := by ring
        rw [e1, e2] at h
        exact h)
      rw [hstep, Nat.mod_eq_of_lt hlt, ihh]
      refine congrArg (fun t => ((), t, (0 : Int))) ?_
      rw [← cons_shift_range (fun k => (a + 256 * k, (256 : Nat), d + 256 * k)) (m + 1)]
      refine congrArg₂ (· :: ·) (by simp) ?_
      exact (List.map_congr_left fun k _ => by
        simp only [Prod.mk.injEq]
        exact ⟨by ring, trivial, by ring⟩).symm

theorem progLoop_cons (f : Nat → Nat → Nat → Int) (n a d : Nat) (h0 : f a 256 d = 0) :
    openProgramLoop (ppOracle f) (n + 1) () a d =
      ((), (a, 256, d) ::
        (openProgramLoop (ppOracle f) n () ((a + 256) % 2 ^ 32) (d + 256)).2.1,
       (openProgramLoop (ppOracle f) n () ((a + 256) % 2 ^ 32) (d + 256)).2.2) := by
  simp [openProgramLoop, ppOracle, h0]

theorem progLoop_fail (f : Nat → Nat → Nat → Int) (k : Nat) :
    ∀ (n a d : Nat), k < n → a + 256 * n ≤ 2 ^ 32 →
    (∀ j, j < k → f (a + 256 * j) 256 (d + 256 * j) = 0) →
    f (a + 256 * k) 256 (d + 256 * k) ≠ 0 →
    openProgramLoop (ppOracle f) n () a d =
      ((), (List.range (k + 1)).map fun j => (a + 256 * j, 256, d + 256 * j), 1) := by
  induction k with
  | zero =>
    intro n a d hkn hov hj hf
    obtain ⟨m, rfl⟩ : ∃ m, n = m + 1 := ⟨n - 1, by omega⟩
    have hf0 : f a 256 d ≠ 0 := by simpa using hf
    simp [openProgramLoop, ppOracle, hf0, List.range_succ]
  | succ k ihk =>
    intro n a d hkn hov hj hf
    obtain ⟨m, rfl⟩ : ∃ m, n = m + 1 := ⟨n - 1, by omega⟩
    have h0 : f a 256 d = 0 := by simpa using hj 0 k.succ_pos
    have hlt : a + 256 < 2 ^ 32 := by omega
    have ihh := ihk m (a + 256) (d + 256) (by omega) (by omega)
      (fun j hjk => by
        have h := hj (j + 1) (by omega)
        have e1 : a + 256 * (j + 1) = a + 256 + 256 * j := by ring
        have e2 : d + 256 * (j + 1) = d + 256 + 256 * j := by ring
        rw [e1, e2] at h
        exact h)
      (by
        have e1 : a + 256 * (k + 1) = a + 256 + 256 * k := by ring
        have e2 : d + 256 * (k + 1) = d + 256 + 256 * k := by ring
        rw [e1, e2] at hf
        exact hf)
    rw [progLoop_cons f m a d h0, Nat.mod_eq_of_lt hlt, ihh]
    refine congrArg (fun t => ((), t, (1 : Int))) ?_
    rw [← cons_shift_range (fun j => (a + 256 * j, (256 : Nat), d + 256 * j)) (k + 1)]
    refine congrArg₂ (· :: ·) (by simp) ?_
    exact (List.map_congr_left fun j _ => by
      simp only [Prod.mk.injEq]
      exact ⟨by ring, trivial, by ring⟩).symm

theorem progLoop_result {σ ε : Type} (pp : σ → Nat → Nat → Nat → σ × List ε × Int) (n : Nat) :
    ∀ (s : σ) (a d : Nat),
      (openProgramLoop pp n s a d).2.2 = 0 ∨ (openProgramLoop pp n s a d).2.2 = 1 := by
  induction n with
  | zero => intro s a d; simp [openProgramLoop]
  | succ n ih =>
    intro s a d
    simp only [openProgramLoop]
    split
    · right; rfl
    · exact ih _ _ _

theorem progLoop_dev_zero (data : Nat → Nat) (n : Nat) :
    ∀ (mem : Mem) (a d : Nat), (openProgramLoop (ppDev data) n mem a d).2.2 = 0 := by
  induction n with
  | zero => intro mem a d; simp [openProgramLoop]
  | succ n ih =>
    intro mem a d
    have h0 : (ppDev data mem a (1 <<< PAGE_SIZE_SHIFT) d).2.2 = 0 := rfl
    simp only [openProgramLoop, h0]
    simp only [ne_eq, not_true_eq_false, not_false_eq_true, if_neg, if_pos]
    exact ih _ _ _

theorem progLoop_dev_alias (data : Nat → Nat) (n : Nat) :
    ∀ (mem : Mem) (a b d : Nat), a % 2 ^ 28 = b % 2 ^ 28 →
      openProgramLoop (ppDev data) n mem a d = openProgramLoop (ppDev data) n mem b d := by
  induction n with
  | zero => intro mem a b d _; rfl
  | succ n ih =>
    intro mem a b d h
    have hm : mask28 a = mask28 b := by rw [mask28_eq_mod, mask28_eq_mod, h]
    have hnext : (a + (1 <<< PAGE_SIZE_SHIFT)) % 2 ^ 32 % 2 ^ 28 =
        (b + (1 <<< PAGE_SIZE_SHIFT)) % 2 ^ 32 % 2 ^ 28 := by
      rw [mod32_mod28, mod32_mod28, Nat.add_mod, Nat.add_mod b, h]
    simp only [openProgramLoop, ppDev, ProgramPage, hm]
    rw [ih _ _ _ _ hnext]

/-! ### The `SEGGER_OPEN_Erase` sector loop -/

theorem eraseLoop_cons (g : Nat → Int) (n a : Nat) (h0 : g (mask28 a) = 0) :
    openEraseLoop (esOracle g) (n + 1) () a =
      ((), Event.eraseSector (mask28 a) ::
        (openEraseLoop (esOracle g) n () ((a + 4096) % 2 ^ 32)).2.1,
       (openEraseLoop (esOracle g) n () ((a + 4096) % 2 ^ 32)).2.2) := by
  simp [openEraseLoop, esOracle, h0]

theorem eraseLoop_ok (g : Nat → Int) (n : Nat) :
    ∀ (a : Nat), a + 4096 * n ≤ 2 ^ 28 →
    (∀ j, j < n → g (a + 4096 * j) = 0) →
    openEraseLoop (esOracle g) n () a =
      ((), (List.range n).map fun j => Event.eraseSector (a + 4096 * j), 0) := by
  induction n with
  | zero => intro a _ _; simp [openEraseLoop]
  | succ n ih =>
    intro a hov hok
    have ha : a < 2 ^ 28 := by omega
    have h0 : g (mask28 a) = 0 := by
      rw [mask28_of_lt ha]
      simpa using hok 0 n.succ_pos
    have hlt : a + 4096 < 2 ^ 32 := by omega
    rw [eraseLoop_cons g n a h0, Nat.mod_eq_of_lt hlt, mask28_of_lt ha]
    have ihh := ih (a + 4096) (by omega) (fun j hj => by
      have h := hok (j + 1) (by omega)
      have e : a + 4096 * (j + 1) = a + 4096 + 4096 * j := by ring
      rw [e] at h
      exact h)
    rw [ihh]
    refine congrArg (fun t => ((), t, (0 : Int))) ?_
    rw [← cons_shift_range (fun j => Event.eraseSector (a + 4096 * j)) n]
    refine congrArg₂ (· :: ·) (by simp) ?_
    exact (List.map_congr_left fun j _ => congrArg Event.eraseSector (by ring)).symm

theorem eraseLoop_fail (g : Nat → Int) (k : Nat) :
    ∀ (n a : Nat), k < n → a + 4096 * n ≤ 2 ^ 28 →
    (∀ j, j < k → g (a + 4096 * j) = 0) →
    g (a + 4096 * k) ≠ 0 →
    openEraseLoop (esOracle g) n () a =
      ((), (List.range (k + 1)).map fun j => Event.eraseSector (a + 4096 * j), 1) := by
  induction k with
  | zero =>
    intro n a hkn hov hj hf
    obtain ⟨m, rfl⟩ : ∃ m, n = m + 1 := ⟨n - 1, by omega⟩
    have ha : a < 2 ^ 28 := by omega
    have hf0 : g a ≠ 0 := by simpa using hf
    simp [openEraseLoop, esOracle, hf0, List.range_succ, mask28_of_lt ha]
  | succ k ihk =>
    intro n a hkn hov hj hf
    obtain ⟨m, rfl⟩ : ∃ m, n = m + 1 := ⟨n - 1, by omega⟩
    have ha : a < 2 ^ 28 := by omega
    have h0 : g (mask28 a) = 0 := by
      rw [mask28_of_lt ha]
      simpa using hj 0 k.succ_pos
    have hlt : a + 4096 < 2 ^ 32 := by omega
    have ihh := ihk m (a + 4096) (by omega) (by omega)
      (fun j hjk => by
        have h := hj (j + 1) (by omega)
        have e : a + 4096 * (j + 1) = a + 4096 + 4096 * j := by ring
        rw [e] at h
        exact h)
      (by
        have e : a + 4096 * (k + 1) = a + 4096 + 4096 * k := by ring
        rw [e] at hf
        exact hf)
    rw [eraseLoop_cons g m a h0, Nat.mod_eq_of_lt hlt, mask28_of_lt ha, ihh]
    refine congrArg (fun t => ((), t, (1 : Int))) ?_
    rw [← cons_shift_range (fun j => Event.eraseSector (a + 4096 * j)) (k + 1)]
    refine congrArg₂ (· :: ·) (by simp) ?_
    exact (List.map_congr_left fun j _ => congrArg Event.eraseSector (by ring)).symm

theorem eraseLoop_result {σ : Type} (es : σ → Nat → σ × List Event × Int) (n : Nat) :
    ∀ (s : σ) (a : Nat),
      (openEraseLoop es n s a).2.2 = 0 ∨ (openEraseLoop es n s a).2.2 = 1 := by
  induction n with
  | zero => intro s a; simp [openEraseLoop]
  | succ n ih =>
    intro s a
    simp only [openEraseLoop]
    split
    · right; rfl
    · exact ih _ _

theorem eraseLoop_dev_zero (n : Nat) :
    ∀ (mem : Mem) (a : Nat), (openEraseLoop (fun m x => EraseSector m x) n mem a).2.2 = 0 := by
  induction n with
  | zero => intro mem a; simp [openEraseLoop]
  | succ n ih =>
    intro mem a
    have h0 : ((fun (m : Mem) x => EraseSector m x) mem (mask28 a)).2.2 = 0 := rfl
    simp only [openEraseLoop, h0]
    simp only [ne_eq, not_true_eq_false, not_false_eq_true, if_neg, if_pos]
    exact ih _ _

theorem eraseLoop_alias {σ : Type} (es : σ → Nat → σ × List Event × Int) (n : Nat) :
    ∀ (s : σ) (a b : Nat), a % 2 ^ 28 = b % 2 ^ 28 →
      openEraseLoop es n s a = openEraseLoop es n s b := by
  induction n with
  | zero => intro s a b _; rfl
  | succ n ih =>
    intro s a b h
    have hm : mask28 a = mask28 b := by rw [mask28_eq_mod, mask28_eq_mod, h]
    have hnext : (a + (1 <<< SECTOR_SIZE_SHIFT)) % 2 ^ 32 % 2 ^ 28 =
        (b + (1 <<< SECTOR_SIZE_SHIFT)) % 2 ^ 32 % 2 ^ 28 := by
      rw [mod32_mod28, mod32_mod28, Nat.add_mod, Nat.add_mod b, h]
    simp only [openEraseLoop, hm]
    rw [ih _ _ _ hnext]

theorem eraseLoop_oracle_events (g : Nat → Int) (n : Nat) :
    ∀ (a : Nat), ∀ e ∈ (openEraseLoop (esOracle g) n () a).2.1, ∃ x, e = Event.eraseSector x := by
  induction n with
  | zero => intro a e he; simp [openEraseLoop] at he
  | succ n ih =>
    intro a e he
    simp only [openEraseLoop, esOracle] at he
    by_cases h : g (mask28 a) ≠ 0
    · rw [if_pos (by simpa using h)] at he
      simp at he
      exact ⟨mask28 a, he⟩
    · rw [if_neg (by simpa using h)] at he
      simp only [List.mem_append, List.singleton_append, List.mem_cons] at he
      rcases he with he | he
      · exact ⟨mask28 a, he⟩
      · exact ih _ _ he

theorem pages_of_mul (N : Nat) : (256 * N) >>> PAGE_SIZE_SHIFT = N := by
  rw [Nat.shiftRight_eq_div_pow]
  show 256 * N / 2 ^ 8 = N
  norm_num

/-- C1: for every bulk program request `(address, size, data)` with
`size = N * 256`, `SEGGER_OPEN_Program` issues exactly `N` `ProgramPage`
calls, the `k`-th call receiving `address + k*256`, length `256` and data
pointer `data + k*256`, in strictly increasing address order; and if the
call for page `k` returns non-zero, the function returns `1` having made
no calls for pages `k+1..N-1`.  `address + size ≤ 2^32` is the host
contract (addresses stay inside the 32-bit mapped range), under which the
`uint32_t` address increments do not wrap. -/
theorem C1_bulk_program_split (f : Nat → Nat → Nat → Int) (address size dataOff N : Nat)
    (hN : size = 256 * N) (hov : address + size ≤ 2 ^ 32) :
    ((∀ k, k < N → f (address + 256 * k) 256 (dataOff + 256 * k) = 0) →
      SEGGER_OPEN_Program (ppOracle f) () address size dataOff =
        ((), (List.range N).map (fun k => (address + 256 * k, 256, dataOff + 256 * k)), 0) ∧
      List.Pairwise (fun p q : Nat × Nat × Nat => p.1 < q.1)
        (SEGGER_OPEN_Program (ppOracle f) () address size dataOff).2.1) ∧
    (∀ k, k < N → (∀ j, j < k → f (address + 256 * j) 256 (dataOff + 256 * j) = 0) →
      f (address + 256 * k) 256 (dataOff + 256 * k) ≠ 0 →
      SEGGER_OPEN_Program (ppOracle f) () address size dataOff =
        ((), (List.range (k + 1)).map (fun j => (address + 256 * j, 256, dataOff + 256 * j)), 1)) := by
  have hpages : size >>> PAGE_SIZE_SHIFT = N := by rw [hN, pages_of_mul]
  constructor
  · intro hok
    have h := progLoop_ok f N address dataOff (by omega) hok
    have htr : SEGGER_OPEN_Program (ppOracle f) () address size dataOff =
        ((), (List.range N).map (fun k => (address + 256 * k, 256, dataOff + 256 * k)), 0) := by
      rw [SEGGER_OPEN_Program, hpages, h]
    refine ⟨htr, ?_⟩
    rw [htr]
    refine List.pairwise_map.mpr ?_
    refine (List.pairwise_lt_range N).imp ?_
    intro i j hij
    simpa using by omega
  · intro k hk hj hf
    have h := progLoop_fail f k N address dataOff hk (by omega) hj hf
    rw [SEGGER_OPEN_Program, hpages, h]

theorem C1_bulk_program_split_witness :
    SEGGER_OPEN_Program (ppOracle fun _ _ _ => (0 : Int)) () 4096 512 0 =
      ((), [(4096, 256, 0), (4352, 256, 256)], 0) := by
  have h := (C1_bulk_program_split (fun _ _ _ => (0 : Int)) 4096 512 0 2
    (by norm_num) (by norm_num)).1 (fun _ _ => rfl)
  exact h.1.trans (by decide)

/-- C4: for every start address and sector count `M` (inside the device
range, per the host contract `sectorAddr + 4096*M ≤ 2^28`),
`SEGGER_OPEN_Erase` calls `FeedWatchdog` exactly once, before any erase
(the watchdog event heads the trace and occurs nowhere else), then issues
exactly `M` `EraseSector` calls at 4096-byte strides from the start
address; if the erase of sector `j` fails it returns `1` and issues no
erase for the remaining sectors. -/
theorem C4_bulk_erase_stride (g : Nat → Int) (sectorAddr sectorIndex M : Nat)
    (hov : sectorAddr + 4096 * M ≤ 2 ^ 28) :
    ((SEGGER_OPEN_Erase (esOracle g) () sectorAddr sectorIndex M).2.1.head? =
        some Event.feedWatchdog ∧
     (SEGGER_OPEN_Erase (esOracle g) () sectorAddr sectorIndex M).2.1.count
        Event.feedWatchdog = 1) ∧
    ((∀ j, j < M → g (sectorAddr + 4096 * j) = 0) →
      SEGGER_OPEN_Erase (esOracle g) () sectorAddr sectorIndex M =
        ((), Event.feedWatchdog ::
          (List.range M).map (fun j => Event.eraseSector (sectorAddr + 4096 * j)), 0)) ∧
    (∀ j, j < M → (∀ i, i < j → g (sectorAddr + 4096 * i) = 0) →
      g (sectorAddr + 4096 * j) ≠ 0 →
      SEGGER_OPEN_Erase (esOracle g) () sectorAddr sectorIndex M =
        ((), Event.feedWatchdog ::
          (List.range (j + 1)).map (fun i => Event.eraseSector (sectorAddr + 4096 * i)), 1)) := by
  refine ⟨⟨rfl, ?_⟩, ?_, ?_⟩
  · show (Event.feedWatchdog ::
      (openEraseLoop (esOracle g) M () sectorAddr).2.1).count Event.feedWatchdog = 1
    rw [List.count_cons_self, List.count_eq_zero.mpr]
    intro hmem
    obtain ⟨x, hx⟩ := eraseLoop_oracle_events g M sectorAddr Event.feedWatchdog hmem
    exact Event.noConfusion hx
  · intro hok
    have h := eraseLoop_ok g M sectorAddr hov hok
    show (_, Event.feedWatchdog :: (openEraseLoop (esOracle g) M () sectorAddr).2.1, _) = _
    rw [h]
  · intro j hj hi hf
    have h := eraseLoop_fail g j M sectorAddr hj hov hi hf
    show (_, Event.feedWatchdog :: (openEraseLoop (esOracle g) M () sectorAddr).2.1, _) = _
    rw [h]

theorem C4_bulk_erase_stride_witness :
    SEGGER_OPEN_Erase (esOracle fun _ => (0 : Int)) () 4096 7 3 =
      ((), [Event.feedWatchdog, Event.eraseSector 4096, Event.eraseSector 8192,
            Event.eraseSector 12288], 0) := by
  have h := (C4_bulk_erase_stride (fun _ => (0 : Int)) 4096 7 3 (by norm_num)).2.1
    (fun _ _ => rfl)
  exact h.trans (by decide)

/-- C7: `Init`, `EraseSector`, `ProgramPage` and `EraseChip`
unconditionally return `0` for every input and every device state, so the
failure branches inside `SEGGER_OPEN_Program` and `SEGGER_OPEN_Erase` are
unreachable and both bulk entry points, run against these real leaf
functions, also return `0` on every input. -/
theorem C7_leaves_always_succeed :
    (∀ a f fn, Init a f fn = 0) ∧
    (∀ (mem : Mem) a, (EraseSector mem a).2.2 = 0) ∧
    (∀ (mem : Mem) a s data d, (ProgramPage mem a s data d).2.2 = 0) ∧
    (∀ (mem : Mem), (EraseChip mem).2.2 = 0) ∧
    (∀ (mem : Mem) a s data d, (SEGGER_OPEN_Program_dev mem a s data d).2.2 = 0) ∧
    (∀ (mem : Mem) a i n, (SEGGER_OPEN_Erase_dev mem a i n).2.2 = 0) := by
  refine ⟨fun _ _ _ => rfl, fun _ _ => rfl, fun _ _ _ _ _ => rfl, fun _ => rfl, ?_, ?_⟩
  · intro mem a s data d
    exact progLoop_dev_zero data (s >>> PAGE_SIZE_SHIFT) mem a d
  · intro mem a i n
    show (openEraseLoop (fun m x => EraseSector m x) n mem a).2.2 = 0
    exact eraseLoop_dev_zero n mem a

/-- C10: `SEGGER_OPEN_Erase` never reads its `SectorIndex` parameter: for
any device/driver behaviour `es`, any state, any start address and sector
count, and any two index values, the results (state, issued command
sequence and return code) are identical. -/
theorem C10_sector_index_ignored {σ : Type} (es : σ → Nat → σ × List Event × Int)
    (s : σ) (sectorAddr idx₁ idx₂ numSectors : Nat) :
    SEGGER_OPEN_Erase es s sectorAddr idx₁ numSectors =
      SEGGER_OPEN_Erase es s sectorAddr idx₂ numSectors := rfl

/-- C2 counterexample: requesting 100 bytes (not a multiple of the
256-byte page size) makes `SEGGER_OPEN_Program` return `0` (success)
while issuing no page-program call at all: against a blank device, byte
37 of the requested range still reads the blank value `0xff` instead of
the host data `0xaa`, so success is returned with the range only
partially (here: not at all) programmed. -/
theorem C2_partial_page_counterexample :
    SEGGER_OPEN_Program (ppOracle fun _ _ _ => (0 : Int)) () 0 100 0 = ((), [], 0) ∧
    (SEGGER_OPEN_Program_dev (fun _ => 0xff) 0 100 (fun _ => 0xaa) 0).2.2 = 0 ∧
    (SEGGER_OPEN_Program_dev (fun _ => 0xff) 0 100 (fun _ => 0xaa) 0).1 37 = 0xff ∧
    (0xff : Nat) ≠ 0xaa ∧ (100 : Nat) ≠ 0 := by
  exact ⟨rfl, rfl, rfl, by decide, by decide⟩

/-- C2 amended: for requests whose `size` is a multiple of the 256-byte
page size (`size = 256 * N`), `SEGGER_OPEN_Program` either issues the
page-program calls covering the full range (returning `0`) or stops at
the first failing page (returning `1`, with exactly the failing page and
its predecessors attempted); sizes that are not page multiples have their
trailing `size % 256` bytes silently skipped (see the counterexample).
`SEGGER_OPEN_Erase` processes its full sector count or fails at the first
error.  Host contract bounds as in C1/C4. -/
theorem C2_full_range_or_first_error (f : Nat → Nat → Nat → Int) (address N dataOff : Nat)
    (g : Nat → Int) (sectorAddr sectorIndex M : Nat)
    (hovP : address + 256 * N ≤ 2 ^ 32) (hovE : sectorAddr + 4096 * M ≤ 2 ^ 28) :
    (((SEGGER_OPEN_Program (ppOracle f) () address (256 * N) dataOff).2.2 = 0 ∨
      (SEGGER_OPEN_Program (ppOracle f) () address (256 * N) dataOff).2.2 = 1) ∧
     ((SEGGER_OPEN_Program (ppOracle f) () address (256 * N) dataOff).2.2 = 0 →
      (SEGGER_OPEN_Program (ppOracle f) () address (256 * N) dataOff).2.1 =
        (List.range N).map (fun k => (address + 256 * k, 256, dataOff + 256 * k))) ∧
     ((SEGGER_OPEN_Program (ppOracle f) () address (256 * N) dataOff).2.2 = 1 →
      ∃ k, k < N ∧ f (address + 256 * k) 256 (dataOff + 256 * k) ≠ 0 ∧
        (SEGGER_OPEN_Program (ppOracle f) () address (256 * N) dataOff).2.1.length = k + 1)) ∧
    (((SEGGER_OPEN_Erase (esOracle g) () sectorAddr sectorIndex M).2.2 = 0 ∨
      (SEGGER_OPEN_Erase (esOracle g) () sectorAddr sectorIndex M).2.2 = 1) ∧
     ((SEGGER_OPEN_Erase (esOracle g) () sectorAddr sectorIndex M).2.2 = 0 →
      (SEGGER_OPEN_Erase (esOracle g) () sectorAddr sectorIndex M).2.1 =
        Event.feedWatchdog ::
          (List.range M).map (fun j => Event.eraseSector (sectorAddr + 4096 * j))) ∧
     ((SEGGER_OPEN_Erase (esOracle g) () sectorAddr sectorIndex M).2.2 = 1 →
      ∃ j, j < M ∧ g (sectorAddr + 4096 * j) ≠ 0 ∧
        (SEGGER_OPEN_Erase (esOracle g) () sectorAddr sectorIndex M).2.1.length = j + 2)) := by
  constructor
  · by_cases hall : ∀ k, k < N → f (address + 256 * k) 256 (dataOff + 256 * k) = 0
    · have h := progLoop_ok f N address dataOff (by omega) hall
      have htr : SEGGER_OPEN_Program (ppOracle f) () address (256 * N) dataOff =
          ((), (List.range N).map (fun k => (address + 256 * k, 256, dataOff + 256 * k)), 0) := by
        rw [SEGGER_OPEN_Program, pages_of_mul, h]
      refine ⟨Or.inl (by rw [htr]), fun _ => by rw [htr], fun h1 => ?_⟩
      rw [htr] at h1
      simp at h1
    · push_neg at hall
      obtain ⟨k, hkN, hkf⟩ := hall
      have hex : ∃ k, k < N ∧ f (address + 256 * k) 256 (dataOff + 256 * k) ≠ 0 :=
        ⟨k, hkN, hkf⟩
      have hk0 := Nat.find_spec hex
      have hmin : ∀ j, j < Nat.find hex →
          f (address + 256 * j) 256 (dataOff + 256 * j) = 0 := by
        intro j hj
        have hns := Nat.find_min hex hj
        by_contra hne
        exact hns ⟨by omega, hne⟩
      have h := progLoop_fail f (Nat.find hex) N address dataOff hk0.1 (by omega) hmin hk0.2
      have htr : SEGGER_OPEN_Program (ppOracle f) () address (256 * N) dataOff =
          ((), (List.range (Nat.find hex + 1)).map
            (fun j => (address + 256 * j, 256, dataOff + 256 * j)), 1) := by
        rw [SEGGER_OPEN_Program, pages_of_mul, h]
      refine ⟨Or.inr (by rw [htr]), fun h0 => ?_, fun _ => ?_⟩
      · rw [htr] at h0
        simp at h0
      · exact ⟨Nat.find hex, hk0.1, hk0.2, by rw [htr]; simp⟩
  · by_cases hall : ∀ j, j < M → g (sectorAddr + 4096 * j) = 0
    · have h := eraseLoop_ok g M sectorAddr hovE hall
      have htr : SEGGER_OPEN_Erase (esOracle g) () sectorAddr sectorIndex M =
          ((), Event.feedWatchdog ::
            (List.range M).map (fun j => Event.eraseSector (sectorAddr + 4096 * j)), 0) := by
        show (_, Event.feedWatchdog :: (openEraseLoop (esOracle g) M () sectorAddr).2.1, _) = _
        rw [h]
      refine ⟨Or.inl (by rw [htr]), fun _ => by rw [htr], fun h1 => ?_⟩
      rw [htr] at h1
      simp at h1
    · push_neg at hall
      obtain ⟨j, hjM, hjg⟩ := hall
      have hex : ∃ j, j < M ∧ g (sectorAddr + 4096 * j) ≠ 0 := ⟨j, hjM, hjg⟩
      have hj0 := Nat.find_spec hex
      have hmin : ∀ i, i < Nat.find hex → g (sectorAddr + 4096 * i) = 0 := by
        intro i hi
        have hns := Nat.find_min hex hi
        by_contra hne
        exact hns ⟨by omega, hne⟩
      have h := eraseLoop_fail g (Nat.find hex) M sectorAddr hj0.1 hovE hmin hj0.2
      have htr : SEGGER_OPEN_Erase (esOracle g) () sectorAddr sectorIndex M =
          ((), Event.feedWatchdog :: (List.range (Nat.find hex + 1)).map
            (fun i => Event.eraseSector (sectorAddr + 4096 * i)), 1) := by
        show (_, Event.feedWatchdog :: (openEraseLoop (esOracle g) M () sectorAddr).2.1, _) = _
        rw [h]
      refine ⟨Or.inr (by rw [htr]), fun h0 => ?_, fun _ => ?_⟩
      · rw [htr] at h0
        simp at h0
      · exact ⟨Nat.find hex, hj0.1, hj0.2, by rw [htr]; simp⟩

theorem C2_full_range_or_first_error_witness :
    (SEGGER_OPEN_Program (ppOracle fun _ _ _ => (0 : Int)) () 0 (256 * 2) 0).2.2 = 0 ∨
    (SEGGER_OPEN_Program (ppOracle fun _ _ _ => (0 : Int)) () 0 (256 * 2) 0).2.2 = 1 :=
  (C2_full_range_or_first_error (fun _ _ _ => (0 : Int)) 0 2 0 (fun _ => (0 : Int)) 0 0 1
    (by norm_num) (by norm_num)).1.1

/-! ### The `BlankCheck` chunk loop -/

theorem blankCheckLoop_spec (mem : Mem) (blank : Nat) :
    ∀ (rem addr : Nat),
      ((blankCheckLoop mem blank addr rem).2 = 0 ↔
        ∀ j, j < rem → mem (addr + j) = blank) ∧
      ((blankCheckLoop mem blank addr rem).2 = 0 ∨
        (blankCheckLoop mem blank addr rem).2 = 1) ∧
      (∀ p ∈ (blankCheckLoop mem blank addr rem).1,
        ∃ i, i < rem ∧ p = (addr + i, min (rem - i) 256)) ∧
      (∀ m, m < rem → (∀ j, j < m → mem (addr + j) = blank) →
        mem (addr + m) ≠ blank →
        ∀ p ∈ (blankCheckLoop mem blank addr rem).1, p.1 ≤ addr + m) := by
  intro rem
  induction rem using Nat.strong_induction_on with
  | _ rem ih =>
    intro addr
    match rem with
    | 0 =>
      refine ⟨by simp [blankCheckLoop], Or.inl (by simp [blankCheckLoop]), ?_, ?_⟩
      · intro p hp
        simp [blankCheckLoop] at hp
      · intro m hm
        exact absurd hm (by omega)
    | rem + 1 =>
      have hs1 : 1 ≤ min (rem + 1) 256 := by omega
      have hsr : min (rem + 1) 256 ≤ rem + 1 := Nat.min_le_left _ _
      by_cases hc : ∀ j, j < min (rem + 1) 256 → mem (addr + j) = blank
      · have hcond : ((List.range (min (rem + 1) 256)).all
            (fun j => mem (addr + j) == blank)) = true := by
          rw [List.all_eq_true]
          intro j hj
          exact beq_iff_eq.mpr (hc j (List.mem_range.mp hj))
        have heq : blankCheckLoop mem blank addr (rem + 1) =
            ((addr, min (rem + 1) 256) ::
              (blankCheckLoop mem blank (addr + min (rem + 1) 256)
                (rem + 1 - min (rem + 1) 256)).1,
             (blankCheckLoop mem blank (addr + min (rem + 1) 256)
                (rem + 1 - min (rem + 1) 256)).2) := by
          rw [blankCheckLoop]
          rw [if_pos hcond]
        obtain ⟨ih1, ih2, ih3, ih4⟩ := ih (rem + 1 - min (rem + 1) 256) (by omega)
          (addr + min (rem + 1) 256)
        refine ⟨?_, ?_, ?_, ?_⟩
        · rw [heq]
          simp only []
          rw [ih1]
          constructor
          · intro htail j hj
            by_cases hjs : j < min (rem + 1) 256
            · exact hc j hjs
            · have h := htail (j - min (rem + 1) 256) (by omega)
              rwa [show addr + min (rem + 1) 256 + (j - min (rem + 1) 256) = addr + j from
                by omega] at h
          · intro hall j hj
            have h := hall (min (rem + 1) 256 + j) (by omega)
            rwa [show addr + (min (rem + 1) 256 + j) =
              addr + min (rem + 1) 256 + j from by omega] at h
        · rw [heq]
          exact ih2
        · rw [heq]
          intro p hp
          rcases List.mem_cons.mp hp with hp | hp
          · exact ⟨0, by omega, by simpa using hp⟩
          · obtain ⟨i, hi, hpi⟩ := ih3 p hp
            refine ⟨min (rem + 1) 256 + i, by omega, ?_⟩
            rw [hpi]
            refine congrArg₂ Prod.mk (by omega) (congrArg (fun t => min t 256) (by omega))
        · intro m hm hprev hmis
          have hms : min (rem + 1) 256 ≤ m := by
            by_contra hlt
            exact hmis (hc m (by omega))
          rw [heq]
          intro p hp
          rcases List.mem_cons.mp hp with hp | hp
          · rw [hp]
            exact Nat.le_add_right _ _
          · have h := ih4 (m - min (rem + 1) 256) (by omega)
              (fun j hj => by
                have h := hprev (min (rem + 1) 256 + j) (by omega)
                rwa [show addr + (min (rem + 1) 256 + j) =
                  addr + min (rem + 1) 256 + j from by omega] at h)
              (by
                rwa [show addr + min (rem + 1) 256 + (m - min (rem + 1) 256) = addr + m from
                  by omega])
              p hp
            rwa [show addr + min (rem + 1) 256 + (m - min (rem + 1) 256) = addr + m from
              by omega] at h
      · push_neg at hc
        obtain ⟨j0, hj0, hj0m⟩ := hc
        have hcond : ((List.range (min (rem + 1) 256)).all
            (fun j => mem (addr + j) == blank)) = false := by
          rw [← Bool.not_eq_true, List.all_eq_true]
          intro hall
          exact hj0m (beq_iff_eq.mp (hall j0 (List.mem_range.mpr hj0)))
        have heq : blankCheckLoop mem blank addr (rem + 1) =
            ([(addr, min (rem + 1) 256)], 1) := by
          rw [blankCheckLoop]
          rw [if_neg (by simp [hcond])]
        refine ⟨?_, ?_, ?_, ?_⟩
        · rw [heq]
          refine iff_of_false (by simp) ?_
          intro hall
          exact hj0m (hall j0 (by omega))
        · rw [heq]
          exact Or.inr rfl
        · rw [heq]
          intro p hp
          refine ⟨0, by omega, ?_⟩
          simpa using hp
        · intro m hm hprev hmis
          rw [heq]
          intro p hp
          simp only [List.mem_singleton] at hp
          rw [hp]
          exact Nat.le_add_right _ _

/-- C3: `BlankCheck` reports blank (result `0`) iff every byte of the
range equals the supplied blank value; its result is always `0` or `1`;
every read it issues is a chunk of `min(remaining, 256)` bytes through
the 256-byte intermediate buffer; and at the first mismatching byte it
returns `1`, issuing no read beyond the chunk containing the mismatch. -/
theorem C3_blank_check (mem : Mem) (address size blank : Nat) :
    ((BlankCheck mem address size blank).2 = 0 ↔
      ∀ j, j < size → mem (mask28 address + j) = blank) ∧
    ((BlankCheck mem address size blank).2 = 0 ∨
      (BlankCheck mem address size blank).2 = 1) ∧
    (∀ p ∈ (BlankCheck mem address size blank).1,
      ∃ i, i < size ∧ p = (mask28 address + i, min (size - i) 256)) ∧
    (∀ m, m < size → (∀ j, j < m → mem (mask28 address + j) = blank) →
      mem (mask28 address + m) ≠ blank →
      (BlankCheck mem address size blank).2 = 1 ∧
      ∀ p ∈ (BlankCheck mem address size blank).1, p.1 ≤ mask28 address + m) := by
  obtain ⟨h1, h2, h3, h4⟩ := blankCheckLoop_spec mem blank size (mask28 address)
  refine ⟨h1, h2, h3, ?_⟩
  intro m hm hprev hmis
  refine ⟨?_, h4 m hm hprev hmis⟩
  rcases h2 with h0 | hone
  · exact absurd (h1.mp h0 m hm) hmis
  · exact hone

set_option maxRecDepth 8000 in
theorem C3_blank_check_witness :
    (BlankCheck (fun x => if x = 300 then 0 else 0xff) 0 600 0xff).2 = 1 ∧
    ∀ p ∈ (BlankCheck (fun x => if x = 300 then 0 else 0xff) 0 600 0xff).1,
      p.1 ≤ mask28 0 + 300 :=
  (C3_blank_check (fun x => if x = 300 then 0 else 0xff) 0 600 0xff).2.2.2 300
    (by decide) (by decide) (by decide)

/-- C5 counterexample: `SEGGER_OPEN_Read` does not return `0`/`1`: reading
5 bytes returns `5`, which is neither `0` nor `1` (the source returns the
requested byte count, per the SEGGER open-flash-loader read contract). -/
theorem C5_read_result_counterexample :
    (SEGGER_OPEN_Read (fun _ => 0xff) 0 5).2 = 5 ∧ (5 : Int) ≠ 0 ∧ (5 : Int) ≠ 1 :=
  ⟨rfl, by decide, by decide⟩

/-- C5 amended: `Init`, `EraseSector`, `ProgramPage`, `EraseChip`,
`BlankCheck`, `SEGGER_OPEN_Program` and `SEGGER_OPEN_Erase` each return
`0` on success and `1` on failure for every input (and every injected
sub-operation behaviour); `SEGGER_OPEN_Read`, however, returns its `size`
argument — the number of bytes read — rather than a `0`/`1` code. -/
theorem C5_entry_point_results :
    (∀ a f fn, Init a f fn = 0 ∨ Init a f fn = 1) ∧
    (∀ (mem : Mem) a, (EraseSector mem a).2.2 = 0 ∨ (EraseSector mem a).2.2 = 1) ∧
    (∀ (mem : Mem) a s data d,
      (ProgramPage mem a s data d).2.2 = 0 ∨ (ProgramPage mem a s data d).2.2 = 1) ∧
    (∀ (mem : Mem), (EraseChip mem).2.2 = 0 ∨ (EraseChip mem).2.2 = 1) ∧
    (∀ (mem : Mem) a s b,
      (BlankCheck mem a s b).2 = 0 ∨ (BlankCheck mem a s b).2 = 1) ∧
    (∀ (σ ε : Type) (pp : σ → Nat → Nat → Nat → σ × List ε × Int) s a sz d,
      (SEGGER_OPEN_Program pp s a sz d).2.2 = 0 ∨
      (SEGGER_OPEN_Program pp s a sz d).2.2 = 1) ∧
    (∀ (σ : Type) (es : σ → Nat → σ × List Event × Int) s a i n,
      (SEGGER_OPEN_Erase es s a i n).2.2 = 0 ∨
      (SEGGER_OPEN_Erase es s a i n).2.2 = 1) ∧
    (∀ (mem : Mem) a s, (SEGGER_OPEN_Read mem a s).2 = (s : Int)) := by
  refine ⟨fun _ _ _ => Or.inl rfl, fun _ _ => Or.inl rfl, fun _ _ _ _ _ => Or.inl rfl,
    fun _ => Or.inl rfl, ?_, ?_, ?_, fun _ _ _ => rfl⟩
  · intro mem a s b
    exact (blankCheckLoop_spec mem b s (mask28 a)).2.1
  · intro σ ε pp s a sz d
    exact progLoop_result pp (sz >>> PAGE_SIZE_SHIFT) s a d
  · intro σ es s a i n
    show (openEraseLoop es n s a).2.2 = 0 ∨ (openEraseLoop es n s a).2.2 = 1
    exact eraseLoop_result es n s a

/-- C6: the operations behave identically on any two host-mapped aliases
of the same native offset (addresses equal modulo `2^28`, e.g.
`0xA0001000` and `0x00001000`): the device state, the issued bus
commands and the result are equal for `EraseSector`, `ProgramPage`,
`BlankCheck`, `SEGGER_OPEN_Read`, and the two bulk entry points run
against the real leaves. -/
theorem C6_address_alias (mem : Mem) (data : Nat → Nat) (a b sz d blank i n : Nat)
    (hm : a % 2 ^ 28 = b % 2 ^ 28) :
    EraseSector mem a = EraseSector mem b ∧
    ProgramPage mem a sz data d = ProgramPage mem b sz data d ∧
    BlankCheck mem a sz blank = BlankCheck mem b sz blank ∧
    SEGGER_OPEN_Read mem a sz = SEGGER_OPEN_Read mem b sz ∧
    SEGGER_OPEN_Program_dev mem a sz data d = SEGGER_OPEN_Program_dev mem b sz data d ∧
    SEGGER_OPEN_Erase_dev mem a i n = SEGGER_OPEN_Erase_dev mem b i n := by
  have hmask : mask28 a = mask28 b := by rw [mask28_eq_mod, mask28_eq_mod, hm]
  refine ⟨?_, ?_, ?_, ?_, ?_, ?_⟩
  · simp only [EraseSector, hmask]
  · simp only [ProgramPage, hmask]
  · simp only [BlankCheck, hmask]
  · simp only [SEGGER_OPEN_Read, hmask]
  · exact progLoop_dev_alias data (sz >>> PAGE_SIZE_SHIFT) mem a b d hm
  · simp only [SEGGER_OPEN_Erase_dev, SEGGER_OPEN_Erase]
    rw [eraseLoop_alias (fun m x => EraseSector m x) n mem a b hm]

theorem C6_address_alias_witness :
    EraseSector (fun _ => 0xff) 0xA0001000 = EraseSector (fun _ => 0xff) 0x00001000 ∧
    SEGGER_OPEN_Read (fun _ => 0xff) 0xA0001000 16 =
      SEGGER_OPEN_Read (fun _ => 0xff) 0x00001000 16 := by
  have h := C6_address_alias (fun _ => 0xff) (fun _ => 0) 0xA0001000 0x00001000 16 0 0xff 0 1
    (by norm_num)
  exact ⟨h.1, h.2.2.2.1⟩

/-! ### The shared busy-wait loop -/

theorem pollLoop_some (busy : Nat → Bool) :
    ∀ (fuel i : Nat) (l : List Nat), pollLoop busy fuel i = some l →
      ∃ n, l = List.replicate n 3 ∧ busy (i + n) = false ∧
        ∀ m, m < n → busy (i + m) = true := by
  intro fuel
  induction fuel with
  | zero => intro i l h; simp [pollLoop] at h
  | succ fuel ih =>
    intro i l h
    simp only [pollLoop] at h
    by_cases hb : busy i
    · rw [if_pos hb] at h
      obtain ⟨t, ht, rfl⟩ : ∃ t, pollLoop busy fuel (i + 1) = some t ∧ l = 3 :: t := by
        cases hp : pollLoop busy fuel (i + 1) with
        | none => rw [hp] at h; simp at h
        | some t =>
          rw [hp] at h
          simp at h
          exact ⟨t, rfl, h.symm⟩
      obtain ⟨n, hn1, hn2, hn3⟩ := ih (i + 1) t ht
      refine ⟨n + 1, by simp [hn1, List.replicate_succ], ?_, ?_⟩
      · rwa [show i + (n + 1) = i + 1 + n from by omega]
      · intro m hm
        cases m with
        | zero => simpa using hb
        | succ m =>
          have h := hn3 m (by omega)
          rwa [show i + (m + 1) = i + 1 + m from by omega]
    · rw [if_neg hb] at h
      refine ⟨0, by simp [← Option.some.inj h], by simpa using hb, ?_⟩
      intro m hm
      exact absurd hm (by omega)

theorem pollLoop_terminates (busy : Nat → Bool) :
    ∀ (n i : Nat), (∀ m, m < n → busy (i + m) = true) → busy (i + n) = false →
      pollLoop busy (n + 1) i = some (List.replicate n 3) := by
  intro n
  induction n with
  | zero =>
    intro i _ h0
    have hb : busy i = false := by simpa using h0
    simp [pollLoop, hb]
  | succ n ih =>
    intro i hall hend
    have hb : busy i = true := by simpa using hall 0 n.succ_pos
    have ht := ih (i + 1)
      (fun m hm => by
        have h := hall (m + 1) (by omega)
        rwa [show i + (m + 1) = i + 1 + m from by omega] at h)
      (by rwa [show i + (n + 1) = i + 1 + n from by omega] at hend)
    show (if busy i then (pollLoop busy (n + 1) (i + 1)).map (fun l => 3 :: l)
      else some []) = _
    rw [if_pos hb, ht]
    simp [List.replicate_succ]

theorem pollLoop_stuck (busy : Nat → Bool) (hb : ∀ n, busy n = true) :
    ∀ (fuel i : Nat), pollLoop busy fuel i = none := by
  intro fuel
  induction fuel with
  | zero => intro i; rfl
  | succ fuel ih =>
    intro i
    simp [pollLoop, hb i, ih]

/-- C8: the busy-wait loop shared by `Init`, `EraseSector`, `ProgramPage`
and `EraseChip` (`while (memory::is_busy()) delay(3 ms)`), modelled by
`pollLoop` over the stream of the device's poll answers: a run that
completes did `n` iterations each delaying exactly 3 ms, where `n` is the
first poll reporting not-busy; it completes for some fuel iff the device
eventually reports not-busy; and a permanently-busy device exhausts every
fuel bound — the loop itself has no iteration cap, so the call loops
forever. -/
theorem C8_busy_wait (busy : Nat → Bool) :
    (∀ fuel l, pollLoop busy fuel 0 = some l →
      ∃ n, l = List.replicate n 3 ∧ busy n = false ∧ ∀ m, m < n → busy m = true) ∧
    ((∃ n, busy n = false) → ∃ fuel l, pollLoop busy fuel 0 = some l) ∧
    ((∀ n, busy n = true) → ∀ fuel, pollLoop busy fuel 0 = none) := by
  refine ⟨?_, ?_, ?_⟩
  · intro fuel l h
    obtain ⟨n, hn1, hn2, hn3⟩ := pollLoop_some busy fuel 0 l h
    exact ⟨n, hn1, by simpa using hn2, fun m hm => by simpa using hn3 m hm⟩
  · intro hex
    have hspec := Nat.find_spec hex
    have hmin : ∀ m, m < Nat.find hex → busy m = true := by
      intro m hm
      have h := Nat.find_min hex hm
      cases hbm : busy m with
      | false => exact absurd hbm h
      | true => rfl
    refine ⟨Nat.find hex + 1, List.replicate (Nat.find hex) 3, ?_⟩
    exact pollLoop_terminates busy (Nat.find hex) 0
      (fun m hm => by simpa using hmin m hm) (by simpa using hspec)
  · intro hb fuel
    exact pollLoop_stuck busy hb fuel 0

theorem C8_busy_wait_witness :
    (∃ fuel l, pollLoop (fun n => decide (n < 2)) fuel 0 = some l) ∧
    pollLoop (fun _ => true) 7 0 = none ∧
    ∃ n, ([3, 3] : List Nat) = List.replicate n 3 ∧
      decide (n < 2) = false ∧ ∀ m, m < n → decide (m < 2) = true :=
  ⟨(C8_busy_wait (fun n => decide (n < 2))).2.1 ⟨2, by decide⟩,
   (C8_busy_wait (fun _ => true)).2.2 (fun _ => rfl) 7,
   (C8_busy_wait (fun n => decide (n < 2))).1 3 [3, 3] (by decide)⟩

/-- C9: programming a page-aligned 256-byte page with host data that is
not all the blank value, then reading the same range back through
`SEGGER_OPEN_Read`, returns exactly the programmed bytes (the
flash-store semantics of `memory::write` / `memory::read` are modelled
from the spec).  `ProgramPage` itself returns 0 and the read returns the
byte count 256. -/
theorem C9_program_read_roundtrip (mem : Mem) (data : Nat → Nat) (address dataOff : Nat)
    (halign : address % 256 = 0) (hnb : ∃ j, j < 256 ∧ data (dataOff + j) ≠ 0xff) :
    (ProgramPage mem address 256 data dataOff).2.2 = 0 ∧
    (SEGGER_OPEN_Read (ProgramPage mem address 256 data dataOff).1 address 256).1 =
      (List.range 256).map (fun j => data (dataOff + j)) ∧
    (SEGGER_OPEN_Read (ProgramPage mem address 256 data dataOff).1 address 256).2 =
      (256 : Int) := by
  refine ⟨rfl, ?_, rfl⟩
  show memReadBytes (memWrite mem (mask28 address) data dataOff 256) (mask28 address) 256 = _
  simp only [memReadBytes]
  refine List.map_congr_left ?_
  intro j hj
  have hj256 : j < 256 := List.mem_range.mp hj
  show memWrite mem (mask28 address) data dataOff 256 (mask28 address + j) =
    data (dataOff + j)
  simp only [memWrite]
  rw [if_pos ⟨Nat.le_add_right _ _, by omega⟩]
  exact congrArg data (by omega)

theorem C9_program_read_roundtrip_witness :
    (SEGGER_OPEN_Read (ProgramPage (fun _ => 0xff) 4096 256 (fun _ => 0xaa) 0).1
      4096 256).1 = (List.range 256).map (fun _ => 0xaa) := by
  have h := C9_program_read_roundtrip (fun _ => 0xff) (fun _ => 0xaa) 4096 0
    (by decide) ⟨0, by decide, by decide⟩
  exact h.2.1

end FlashLoader

